import Mathlib

/-!
Verification of the Rudle word-puzzle solver (src/main.rs).

The development shallowly embeds the three core components of the program:
the word codec (`Word.new`, `Word.from_string`), the hint engine
(`Hint.from_guess_and_answer`, `Hint.from_string`), and the solver session
state machine of `solve` (hint application, undo, and the score-table cache),
together with the chunked scoring pipeline of `get_scores`.

Rust strings are modelled as `List Char`, `Vec` push/pop as append/dropLast at
the right end, and fallible functions return `Except String` carrying the
source's error messages. A Rust `expect` on a failing value (a process abort)
is modelled by `Option`-valued steps returning `none`.
-/

deriving instance DecidableEq for Except

namespace Rudle

/-- Model of Rust `char::is_alphabetic` (the Unicode `Alphabetic` property).
The table is exact on the Latin-1 range U+0000..U+00FF; code points above
U+00FF are mapped to `false`. This restriction is harmless for every modelled
behaviour: `Word.from_string` rejects any character above U+00FF no matter
what this bit is (`to_ascii_uppercase` leaves it unchanged and the
`is_ascii_uppercase` check in `Word::new` then fails), and all concrete inputs
appearing in the claims lie in the Latin-1 range. -/
def isAlphabetic (c : Char) : Bool :=
  (0x41 ≤ c.toNat && c.toNat ≤ 0x5A) || (0x61 ≤ c.toNat && c.toNat ≤ 0x7A) ||
  c.toNat == 0xAA || c.toNat == 0xB5 || c.toNat == 0xBA ||
  (0xC0 ≤ c.toNat && c.toNat ≤ 0xD6) || (0xD8 ≤ c.toNat && c.toNat ≤ 0xF6) ||
  (0xF8 ≤ c.toNat && c.toNat ≤ 0xFF)

/-- Model of Rust `char::is_ascii_uppercase`: the character is in `A`..`Z`. -/
def isAsciiUppercase (c : Char) : Bool :=
  0x41 ≤ c.toNat && c.toNat ≤ 0x5A

/-- An ASCII letter, `A`..`Z` or `a`..`z` (Rust `char::is_ascii_alphabetic`).
Used to characterise the inputs `Word.from_string` accepts. -/
def isAsciiAlpha (c : Char) : Bool :=
  (0x41 ≤ c.toNat && c.toNat ≤ 0x5A) || (0x61 ≤ c.toNat && c.toNat ≤ 0x7A)

/-- Model of Rust `char::to_ascii_uppercase`: ASCII lowercase letters are
shifted down by 32, every other character is unchanged. -/
def toAsciiUppercase (c : Char) : Char :=
  if 0x61 ≤ c.toNat && c.toNat ≤ 0x7A then Char.ofNat (c.toNat - 0x20) else c

/-- struct Word Means chars: Vec of char in the source. -/
structure Word where
  chars : List Char
deriving DecidableEq

/-- Word::new: rejects non-alphabetic characters, then rejects characters that
are not ASCII uppercase; otherwise stores the characters unchanged. -/
def Word.new (chars : List Char) : Except String Word :=
  if !(chars.all isAlphabetic) then
    .error "Input string must contain only alphabetic characters."
  else if !(chars.all isAsciiUppercase) then
    .error "Input string must contain only uppercase characters."
  else
    .ok ⟨chars⟩

/-- Word::from_string: rejects non-alphabetic characters, maps every character
through `to_ascii_uppercase`, and delegates to `Word::new`. Note that the
source performs no length check here: width validation happens at the call
sites (`is_valid_word` during loading and the command handlers in `solve`). -/
def Word.from_string (s : List Char) : Except String Word :=
  if !(s.all isAlphabetic) then
    .error "Input string must contain only alphabetic characters."
  else
    Word.new (s.map toAsciiUppercase)

/-- enum LetterHint from the source. -/
inductive LetterHint where
  | Correct
  | Misplaced
  | Incorrect
deriving DecidableEq

/-- struct Hint Means letter_hints: Vec of LetterHint in the source. -/
structure Hint where
  letter_hints : List LetterHint
deriving DecidableEq

/-- Hint::from_string: walks `zip(hint.chars(), guess.iter())` (which silently
truncates to the shorter of the two sequences — the source has no length
check), rejecting any zipped character that is not the guessed letter up to
ASCII case, `*`, or `_`; then maps the zipped characters to letter hints, with
the guessed-letter test taking precedence as in the source `match`. The final
arm aborts in the source; it is unreachable because the preceding loop
returned an error for exactly those characters, and is modelled by
`.Incorrect`. -/
def Hint.from_string (hint : List Char) (guess : Word) : Except String Hint :=
  if (hint.zip guess.chars).any
      (fun p => !(p.1 == '*') && !(p.1 == '_') && !(toAsciiUppercase p.1 == p.2)) then
    .error "Invalid hint character"
  else
    .ok ⟨(hint.zip guess.chars).map (fun p =>
      if toAsciiUppercase p.1 == p.2 then LetterHint.Correct
      else if p.1 == '*' then LetterHint.Misplaced
      else if p.1 == '_' then LetterHint.Incorrect
      else LetterHint.Incorrect)⟩

/-- First pass of Hint::from_guess_and_answer: positions where the guess and
answer letter coincide are marked `Correct`, and the corresponding scratch
copy of the answer letter is overwritten with the sentinel `'_'`; all other
positions start as `Incorrect` and keep their scratch letter. Returns the
letter-hint vector paired with the scratch answer letters. -/
def firstPass : List Char → List Char → List LetterHint × List Char
  | g :: gs, a :: as' =>
    let r := firstPass gs as'
    if g == a then (LetterHint.Correct :: r.1, '_' :: r.2)
    else (LetterHint.Incorrect :: r.1, a :: r.2)
  | [], as' => ([], as')
  | gs, [] => (gs.map (fun _ => LetterHint.Incorrect), [])

/-- Replace the first occurrence of `c` in the scratch answer with the
sentinel `'_'`; `none` when `c` does not occur (source: `position` followed by
an index write). -/
def consumeFirst (c : Char) : List Char → Option (List Char)
  | [] => none
  | a :: rest =>
    if a == c then some ('_' :: rest)
    else (consumeFirst c rest).map (fun r => a :: r)

/-- Second pass of Hint::from_guess_and_answer: positions not already
`Correct` become `Misplaced` when the guessed letter still occurs in the
scratch answer, consuming that occurrence; otherwise they stay as they are. -/
def secondPass : List LetterHint → List Char → List Char → List LetterHint
  | h :: hs, g :: gs, scratch =>
    if h == LetterHint.Correct then h :: secondPass hs gs scratch
    else
      match consumeFirst g scratch with
      | some scratch' => LetterHint.Misplaced :: secondPass hs gs scratch'
      | none => h :: secondPass hs gs scratch
  | hs, [], _ => hs
  | [], _, _ => []

/-- Hint::from_guess_and_answer: requires equal lengths; errors when both
words fail the alphabetic check (the source condition is a conjunction of the
two negations); then runs the two-pass consume-on-match algorithm. -/
def Hint.from_guess_and_answer (guess answer : Word) : Except String Hint :=
  if guess.chars.length ≠ answer.chars.length then
    .error "Guess and answer must have the same length"
  else if !(guess.chars.all isAlphabetic) && !(answer.chars.all isAlphabetic) then
    .error "Guess and answer must contain only alphabetic characters"
  else
    let fp := firstPass guess.chars answer.chars
    .ok ⟨secondPass fp.1 guess.chars fp.2⟩

/-- One row of the table `get_scores` returns: the `(Word, f32, f32)` triple
(word, expected score, worst-case score). The two f32 components are modelled
by exact rationals; the scoring claims proved below hold for every per-guess
score kernel, so no rounding behaviour of the kernel is relied upon. -/
abbrev ScoreEntry := Word × ℚ × ℚ

/-- Insert an entry into a list sorted by expected score descending, keeping
equal keys in their original relative order (Rust `sort_by` is stable and the
source comparator is `b.1.partial_cmp(&a.1)`, i.e. descending on the expected
score). -/
def insertDesc (x : ScoreEntry) : List ScoreEntry → List ScoreEntry
  | [] => [x]
  | y :: ys => if x.2.1 > y.2.1 then x :: y :: ys else y :: insertDesc x ys

/-- Stable sort by expected score descending, modelling the source's final
`sort_by(|a, b| b.1.partial_cmp(&a.1).unwrap())`. -/
def sortScoresDesc (l : List ScoreEntry) : List ScoreEntry :=
  l.foldr insertDesc []

/-- Split a list into consecutive chunks of size `k` (Rust `par_chunks(k)`;
the source uses `k = 100`, and the last chunk may be shorter). `par_chunks`
aborts on a zero chunk size, so `k = 0` never produces chunks; the scoring
theorems require `0 < k`. -/
def chunksOf (k : ℕ) (l : List α) : List (List α) :=
  if _h : 0 < k ∧ 0 < l.length then
    l.take k :: chunksOf k (l.drop k)
  else
    []
termination_by l.length
decreasing_by
  simp only [List.length_drop]
  omega

/-- get_scores, generalised over the chunk size `k` (the source fixes
`k = 100`) and over the per-guess score kernel `scoreOf`. The kernel — the
source's inner loop building `hint_counts` and computing the entropy-based
expected score and the worst-case score in `f32` — is a pure function of the
guess and the fixed answer list, taken here as a parameter because its
floating-point arithmetic is opaque to the chunking structure under study.
Each chunk maps the kernel over its guesses in order; rayon's indexed
`collect` concatenates the per-chunk vectors in chunk order, and the result
is then sorted by expected score descending. -/
def get_scores (scoreOf : Word → ℚ × ℚ) (k : ℕ) (guesses : List Word) :
    List ScoreEntry :=
  sortScoresDesc
    (((chunksOf k guesses).map (fun chunk => chunk.map (fun g => (g, scoreOf g)))).flatten)

/-- The sequential, one-pass reference computation the chunking claim compares
`get_scores` against: score every guess in order with the same kernel, then
sort identically. -/
def get_scores_seq (scoreOf : Word → ℚ × ℚ) (guesses : List Word) :
    List ScoreEntry :=
  sortScoresDesc (guesses.map (fun g => (g, scoreOf g)))

/-- The mutable REPL state of `solve`: the remaining legal guesses, the
remaining candidate answers, the per-hint removed-answer snapshots, the
history of `(guess, hint)` pairs, and the per-depth score-table cache. Vec
pushes append on the right; Vec pops drop on the right. -/
structure SolverState where
  remaining_guesses : List Word
  remaining_answers : List Word
  removed_answers : List (List Word)
  guess_history : List (Word × Hint)
  word_scores : List (List ScoreEntry)
deriving DecidableEq

/-- The session state at the top of `solve`: both candidate lists start as the
full word list, the history and snapshots are empty, and the cache holds the
single table computed for the initial state. The table builder `sf` stands
for the source's `get_scores` applied to `(remaining_guesses,
remaining_answers)`; the session theorems hold for every builder, so its
floating-point output is left opaque. -/
def initState (sf : List Word → List Word → List ScoreEntry)
    (word_list : List Word) : SolverState :=
  { remaining_guesses := word_list
    remaining_answers := word_list
    removed_answers := []
    guess_history := []
    word_scores := [sf word_list word_list] }

/-- Partition the answers by whether they reproduce `hint` against `guess`
(the source's `partition` with predicate
`Hint::from_guess_and_answer(&guess, w).expect(..) == hint`): kept answers in
the first component, removed answers in the second, both in original order.
`none` models the `expect` abort when some comparison fails. -/
def partitionByHint (guess : Word) (hint : Hint) :
    List Word → Option (List Word × List Word)
  | [] => some ([], [])
  | a :: rest =>
    match Hint.from_guess_and_answer guess a with
    | .error _ => none
    | .ok h =>
      (partitionByHint guess hint rest).map (fun kr =>
        if h = hint then (a :: kr.1, kr.2) else (kr.1, a :: kr.2))

/-- The state change of the `hint` command once `guess` and `hint` have been
parsed: the two width guards and the alphabetic guard reject bad input leaving
the state unchanged; otherwise `guess` is retained out of the remaining
guesses, the answers are partitioned against the hint, and one entry is pushed
onto each of the snapshot list, the history, and the score cache. -/
def hintStep (sf : List Word → List Word → List ScoreEntry) (width : ℕ)
    (st : SolverState) (guess : Word) (hint : Hint) : Option SolverState :=
  if guess.chars.length ≠ width ∨ hint.letter_hints.length ≠ width then
    some st
  else if !(guess.chars.all isAlphabetic) then
    some st
  else
    let rg := st.remaining_guesses.filter (fun w => !(w == guess))
    match partitionByHint guess hint st.remaining_answers with
    | none => none
    | some kr =>
      some { remaining_guesses := rg
             remaining_answers := kr.1
             removed_answers := st.removed_answers ++ [kr.2]
             guess_history := st.guess_history ++ [(guess, hint)]
             word_scores := st.word_scores ++ [sf rg kr.1] }

/-- The state change of the `undo` command: with an empty history it is a
no-op; otherwise it pops the last history entry, the last removed-answer
snapshot and the last cached table (the source `expect`s both pops — `none`
models those aborts), extends the answers with the snapshot, and pushes the
guess back. -/
def undoStep (st : SolverState) : Option SolverState :=
  match st.guess_history.getLast? with
  | none => some st
  | some gh =>
    match st.removed_answers.getLast? with
    | none => none
    | some answers =>
      match st.word_scores.getLast? with
      | none => none
      | some _ =>
        some { remaining_guesses := st.remaining_guesses ++ [gh.1]
               remaining_answers := st.remaining_answers ++ answers
               removed_answers := st.removed_answers.dropLast
               guess_history := st.guess_history.dropLast
               word_scores := st.word_scores.dropLast }

/-- The state effect of the `top` command: reading
`word_scores[guess_history.len()]` aborts if the index is out of range
(modelled by `none`); a malformed `strict` argument is rejected before any
read. The state itself is never changed. -/
def topStep (st : SolverState) (strictArg : Option (List Char)) :
    Option SolverState :=
  match strictArg with
  | none =>
    if st.guess_history.length < st.word_scores.length then some st else none
  | some s =>
    if s = ['s', 't', 'r', 'i', 'c', 't'] then
      if st.guess_history.length < st.word_scores.length then some st else none
    else
      some st

/-- The state effect of the `score` command: an unparseable word is reported
without touching the cache; otherwise `word_scores[guess_history.len()]` is
read (abort on a bad index). The state itself is never changed. -/
def scoreStep (st : SolverState) (w : List Char) : Option SolverState :=
  match Word.from_string w with
  | .error _ => some st
  | .ok _ =>
    if st.guess_history.length < st.word_scores.length then some st else none

/-- The full `hint` command including argument parsing: parse failures are
reported and leave the state unchanged. -/
def hintCmdStep (sf : List Word → List Word → List ScoreEntry) (width : ℕ)
    (st : SolverState) (guessText hintText : List Char) : Option SolverState :=
  match Word.from_string guessText with
  | .error _ => some st
  | .ok guess =>
    match Hint.from_string hintText guess with
    | .error _ => some st
    | .ok hint => hintStep sf width st guess hint

/-- The REPL commands that operate on an active session (`exit` ends the
session and is outside any reachability question). -/
inductive Cmd where
  | top (n : ℕ) (strictArg : Option (List Char))
  | score (w : List Char)
  | hintC (guessText hintText : List Char)
  | historyC
  | undoC
deriving DecidableEq

/-- Dispatch one REPL command against the session state. The `history`
command only reads the state. -/
def step (sf : List Word → List Word → List ScoreEntry) (width : ℕ)
    (st : SolverState) : Cmd → Option SolverState
  | .top _ strictArg => topStep st strictArg
  | .score w => scoreStep st w
  | .hintC g h => hintCmdStep sf width st g h
  | .historyC => some st
  | .undoC => undoStep st

/-- Run a sequence of REPL commands from a state; `none` as soon as a step
aborts. -/
def runSession (sf : List Word → List Word → List ScoreEntry) (width : ℕ) :
    SolverState → List Cmd → Option SolverState
  | st, [] => some st
  | st, c :: cs =>
    match step sf width st c with
    | none => none
    | some st' => runSession sf width st' cs

/-- A trivial score-table builder used to instantiate the session theorems on
concrete inputs. -/
def trivialScores (_gs _as : List Word) : List ScoreEntry := []

/-- The one-letter word A. -/
def wA : Word := ⟨['A']⟩

/-- The one-letter word B. -/
def wB : Word := ⟨['B']⟩

/-- The one-letter word C. -/
def wC : Word := ⟨['C']⟩

/-- The width-5 word ARISE from the spec's concrete scenario. -/
def wARISE : Word := ⟨['A', 'R', 'I', 'S', 'E']⟩

/-- The width-5 word EAGER from the spec's concrete scenario. -/
def wEAGER : Word := ⟨['E', 'A', 'G', 'E', 'R']⟩

/-- The width-5 word HELLO from the REPL help example. -/
def wHELLO : Word := ⟨['H', 'E', 'L', 'L', 'O']⟩

/-- The width-1 hint "the letter is correct". -/
def hC : Hint := ⟨[LetterHint.Correct]⟩

/-- The width-1 hint "the letter is incorrect". -/
def hI : Hint := ⟨[LetterHint.Incorrect]⟩

/-- A width-1 session state over the word list [A, B], used to instantiate the
session theorems and the bit-identical-undo counterexample. -/
def st0 : SolverState :=
  { remaining_guesses := [wA, wB]
    remaining_answers := [wA, wB]
    removed_answers := []
    guess_history := []
    word_scores := [[]] }

/-- The state after applying hint (A, Correct) to `st0`: A keeps the hint
(Correct against itself), B is removed (it yields Incorrect). -/
def st0h : SolverState :=
  { remaining_guesses := [wB]
    remaining_answers := [wA]
    removed_answers := [[wB]]
    guess_history := [(wA, hC)]
    word_scores := [[], []] }

/-- The state after undoing from `st0h`: the removed answer B and the guess A
come back at the end of their lists. -/
def st0hu : SolverState :=
  { remaining_guesses := [wB, wA]
    remaining_answers := [wA, wB]
    removed_answers := []
    guess_history := []
    word_scores := [[]] }

/-- The state after applying hint (C, Incorrect) to `st0`: C is outside the
word list, both answers yield Incorrect against C and are kept. -/
def st9 : SolverState :=
  { remaining_guesses := [wA, wB]
    remaining_answers := [wA, wB]
    removed_answers := [[]]
    guess_history := [(wC, hI)]
    word_scores := [[], []] }

/-- The state after undoing from `st9`: the never-present guess C is pushed
onto the remaining guesses. -/
def st9u : SolverState :=
  { remaining_guesses := [wA, wB, wC]
    remaining_answers := [wA, wB]
    removed_answers := []
    guess_history := []
    word_scores := [[]] }

/-- The cache/history length invariant of `solve`: one cached table for the
initial state plus one per applied hint, and one removed-answer snapshot per
applied hint. -/
def lengthsInv (st : SolverState) : Prop :=
  st.word_scores.length = st.guess_history.length + 1 ∧
  st.removed_answers.length = st.guess_history.length

/-- A concrete per-guess score kernel (score by word length) used to
instantiate the chunking theorem. -/
def lengthKernel (w : Word) : ℚ × ℚ := ((w.chars.length : ℚ), 0)

/-- Packing a valid code point with `Char.ofNat` and reading it back with
`Char.toNat` is the identity. -/
theorem char_toNat_ofNat (n : ℕ) (h : n.isValidChar) :
    (Char.ofNat n).toNat = n := by
  simp [Char.ofNat, dif_pos h, Char.ofNatAux, Char.toNat, UInt32.toNat]

/-- The ASCII-uppercasing of a character is an ASCII uppercase letter exactly
when the character was an ASCII letter. -/
theorem isAsciiUppercase_toAsciiUppercase (c : Char) :
    isAsciiUppercase (toAsciiUppercase c) = isAsciiAlpha c := by
  rw [Bool.eq_iff_iff]
  unfold toAsciiUppercase isAsciiUppercase isAsciiAlpha
  by_cases h : 0x61 ≤ c.toNat ∧ c.toNat ≤ 0x7A
  · rw [if_pos (by simp only [Bool.and_eq_true, decide_eq_true_eq]; exact h)]
    rw [char_toNat_ofNat _ (Or.inl (by omega))]
    simp only [Bool.and_eq_true, Bool.or_eq_true, decide_eq_true_eq]
    omega
  · rw [if_neg (by simp only [Bool.and_eq_true, decide_eq_true_eq]; exact h)]
    simp only [Bool.and_eq_true, Bool.or_eq_true, decide_eq_true_eq]
    omega

/-- ASCII letters satisfy the Unicode alphabetic test. -/
theorem isAlphabetic_of_isAsciiAlpha {c : Char} (h : isAsciiAlpha c = true) :
    isAlphabetic c = true := by
  unfold isAsciiAlpha at h
  unfold isAlphabetic
  simp only [Bool.and_eq_true, Bool.or_eq_true, decide_eq_true_eq,
    beq_iff_eq] at h ⊢
  omega

/-- ASCII uppercase letters satisfy the Unicode alphabetic test. -/
theorem isAlphabetic_of_isAsciiUppercase {c : Char}
    (h : isAsciiUppercase c = true) : isAlphabetic c = true := by
  unfold isAsciiUppercase at h
  unfold isAlphabetic
  simp only [Bool.and_eq_true, Bool.or_eq_true, decide_eq_true_eq,
    beq_iff_eq] at h ⊢
  omega

/-- Word::from_string succeeds exactly on strings of ASCII letters. -/
theorem from_string_isOk_iff (s : List Char) :
    (Word.from_string s).isOk = true ↔ s.all isAsciiAlpha = true := by
  unfold Word.from_string Word.new
  constructor
  · intro hOk
    split at hOk
    · simp [Except.isOk, Except.toBool] at hOk
    · split at hOk
      · simp [Except.isOk, Except.toBool] at hOk
      · split at hOk
        · simp [Except.isOk, Except.toBool] at hOk
        · rename_i hup
          rw [Bool.not_eq_true', Bool.not_eq_false] at hup
          rw [List.all_map] at hup
          rw [List.all_eq_true] at hup ⊢
          intro c hc
          have := hup c hc
          rwa [Function.comp, isAsciiUppercase_toAsciiUppercase] at this
  · intro hAll
    rw [List.all_eq_true] at hAll
    rw [if_neg, if_neg, if_neg]
    · rfl
    · rw [Bool.not_eq_true', Bool.not_eq_false, List.all_map, List.all_eq_true]
      intro c hc
      rw [Function.comp, isAsciiUppercase_toAsciiUppercase]
      exact hAll c hc
    · rw [Bool.not_eq_true', Bool.not_eq_false, List.all_map, List.all_eq_true]
      intro c hc
      have : isAsciiUppercase (toAsciiUppercase c) = true := by
        rw [isAsciiUppercase_toAsciiUppercase]; exact hAll c hc
      exact isAlphabetic_of_isAsciiUppercase this
    · rw [Bool.not_eq_true', Bool.not_eq_false, List.all_eq_true]
      intro c hc
      exact isAlphabetic_of_isAsciiAlpha (hAll c hc)

/-- On a string of ASCII letters, Word::from_string returns the uppercased
word. -/
theorem from_string_ok_val (s : List Char) (hAll : s.all isAsciiAlpha = true) :
    Word.from_string s = Except.ok ⟨s.map toAsciiUppercase⟩ := by
  rw [List.all_eq_true] at hAll
  unfold Word.from_string Word.new
  rw [if_neg, if_neg, if_neg]
  · rw [Bool.not_eq_true', Bool.not_eq_false, List.all_map, List.all_eq_true]
    intro c hc
    rw [Function.comp, isAsciiUppercase_toAsciiUppercase]
    exact hAll c hc
  · rw [Bool.not_eq_true', Bool.not_eq_false, List.all_map, List.all_eq_true]
    intro c hc
    have : isAsciiUppercase (toAsciiUppercase c) = true := by
      rw [isAsciiUppercase_toAsciiUppercase]; exact hAll c hc
    exact isAlphabetic_of_isAsciiUppercase this
  · rw [Bool.not_eq_true', Bool.not_eq_false, List.all_eq_true]
    intro c hc
    exact isAlphabetic_of_isAsciiAlpha (hAll c hc)

/-- C1 counterexample: for guess ARISE against answer EAGER the program does
not produce the hint `[Misplaced, Misplaced, Incorrect, Incorrect, Correct]`
claimed by the spec — at the final position the guessed E faces the answer
letter R, so it cannot be Correct. -/
theorem arise_eager_hint_ne_claimed :
    Hint.from_guess_and_answer wARISE wEAGER ≠
      Except.ok ⟨[LetterHint.Misplaced, LetterHint.Misplaced,
        LetterHint.Incorrect, LetterHint.Incorrect, LetterHint.Correct]⟩ := by
  decide

/-- C1 (amended): for guess ARISE against answer EAGER the two-pass algorithm
yields `[Misplaced, Misplaced, Incorrect, Incorrect, Misplaced]` — the A and R
are misplaced (consuming the answer's A and R), the I and S are absent, and
the final E is misplaced (the answer's first E is still unconsumed). -/
theorem arise_eager_hint :
    Hint.from_guess_and_answer wARISE wEAGER =
      Except.ok ⟨[LetterHint.Misplaced, LetterHint.Misplaced,
        LetterHint.Incorrect, LetterHint.Incorrect, LetterHint.Misplaced]⟩ := by
  decide

/-- C4 counterexample: Hint::from_string performs no length check. The
one-character feedback string "h" against the five-letter guess HELLO does not
fail with the invalid-hint error; it succeeds with a length-1 hint (the zip in
the source silently truncates to the shorter sequence). -/
theorem hint_from_string_no_length_check :
    (['h'] : List Char).length ≠ wHELLO.chars.length ∧
    Hint.from_string ['h'] wHELLO = Except.ok ⟨[LetterHint.Correct]⟩ := by
  decide

/-- C4 (amended): Hint::from_string examines only the first
`min(|text|, |guess|)` positions. It succeeds exactly when every such zipped
character is the guessed letter at that position up to ASCII case, `*`, or
`_`; on success it returns the hint of the zipped length mapping those
characters to Correct, Misplaced and Incorrect respectively (the
guessed-letter test first, as in the source). It never checks that the
lengths agree — the REPL caller separately rejects parsed hints whose length
differs from the configured width. -/
theorem hint_from_string_spec (text : List Char) (guess : Word) :
    ((Hint.from_string text guess).isOk = true ↔
      ∀ p ∈ text.zip guess.chars,
        toAsciiUppercase p.1 = p.2 ∨ p.1 = '*' ∨ p.1 = '_') ∧
    ∀ h, Hint.from_string text guess = Except.ok h →
      h.letter_hints = (text.zip guess.chars).map (fun p =>
        if toAsciiUppercase p.1 = p.2 then LetterHint.Correct
        else if p.1 = '*' then LetterHint.Misplaced
        else LetterHint.Incorrect) := by
  constructor
  · unfold Hint.from_string
    split
    · rename_i hbad
      rw [List.any_eq_true] at hbad
      obtain ⟨p, hp, hpbad⟩ := hbad
      simp only [Bool.and_eq_true, Bool.not_eq_true', beq_eq_false_iff_ne] at hpbad
      simp only [Except.isOk, Except.toBool]
      constructor
      · intro hfalse; exact absurd hfalse (by simp)
      · intro hAll
        rcases hAll p hp with hcase | hcase | hcase
        · exact absurd hcase hpbad.2
        · exact absurd hcase hpbad.1.1
        · exact absurd hcase hpbad.1.2
    · rename_i hgood
      rw [Bool.not_eq_true, List.any_eq_false] at hgood
      simp only [Except.isOk, Except.toBool]
      constructor
      · intro _ p hp
        have := hgood p hp
        simp only [Bool.and_eq_true, Bool.not_eq_true', beq_eq_false_iff_ne,
          not_and, not_not] at this
        by_cases h1 : p.1 = '*'
        · exact Or.inr (Or.inl h1)
        · by_cases h2 : p.1 = '_'
          · exact Or.inr (Or.inr h2)
          · exact Or.inl (this ⟨h1, h2⟩)
      · intro _; trivial
  · intro h hok
    unfold Hint.from_string at hok
    split at hok
    · exact absurd hok (by simp)
    · rename_i hgood
      have hh : h = ⟨(text.zip guess.chars).map (fun p =>
          if toAsciiUppercase p.1 == p.2 then LetterHint.Correct
          else if p.1 == '*' then LetterHint.Misplaced
          else if p.1 == '_' then LetterHint.Incorrect
          else LetterHint.Incorrect)⟩ := (Except.ok.inj hok).symm
      rw [hh]
      dsimp only
      apply List.map_congr_left
      intro p _
      by_cases h1 : toAsciiUppercase p.1 = p.2
      · simp [h1]
      · by_cases h2 : p.1 = '*'
        · simp [h1, h2]
        · by_cases h3 : p.1 = '_'
          · simp [h1, h2, h3]
          · simp [h1, h2, h3]

/-- C4 witness: a feedback string mixing a correct letter, a misplaced marker,
incorrect markers and a lowercase correct letter parses against HELLO. -/
theorem hint_from_string_spec_witness :
    (Hint.from_string ['h', '*', '_', '_', 'O'] wHELLO).isOk = true :=
  (hint_from_string_spec ['h', '*', '_', '_', 'O'] wHELLO).1.mpr (by decide)

/-- C5 counterexample: Word::from_string has no length check at all (the
configured width is not even a parameter of the function): a two-character
string parses successfully under the default width 5 instead of failing with
a length error. -/
theorem word_from_string_no_length_check :
    (['a', 'b'] : List Char).length ≠ 5 ∧
    Word.from_string ['a', 'b'] = Except.ok ⟨['A', 'B']⟩ := by
  decide

/-- C5 (amended): Word::from_string performs no length check — width
validation happens at its call sites. It fails with an invalid-character
error when some character is not alphabetic, or is alphabetic but not an
ASCII letter (the uppercase check in Word::new); equivalently it succeeds
exactly when every character is an ASCII letter, and then returns the word
with every letter case-normalized to uppercase. -/
theorem word_from_string_spec (s : List Char) :
    ((Word.from_string s).isOk = true ↔ s.all isAsciiAlpha = true) ∧
    (s.all isAsciiAlpha = true →
      Word.from_string s = Except.ok ⟨s.map toAsciiUppercase⟩) :=
  ⟨from_string_isOk_iff s, from_string_ok_val s⟩

/-- C5 witness: the lowercase string "hi" parses to the uppercase word HI. -/
theorem word_from_string_spec_witness :
    Word.from_string ['h', 'i'] = Except.ok ⟨['H', 'I']⟩ :=
  (word_from_string_spec ['h', 'i']).2 (by decide)

/-- C10: a string containing a character that is alphabetic but not an ASCII
letter is rejected by Word::from_string, and every Word successfully built by
Word::new (and hence by Word::from_string, which delegates to it) consists
only of ASCII uppercase letters A..Z. -/
theorem word_ascii_only (s : List Char) :
    ((∃ c ∈ s, isAlphabetic c = true ∧ isAsciiAlpha c = false) →
      (Word.from_string s).isOk = false) ∧
    ∀ chars w, Word.new chars = Except.ok w →
      w.chars.all isAsciiUppercase = true := by
  constructor
  · rintro ⟨c, hcs, _, hna⟩
    by_contra hne
    rw [Bool.not_eq_false, from_string_isOk_iff, List.all_eq_true] at hne
    rw [hne c hcs] at hna
    exact absurd hna (by simp)
  · intro chars w hw
    unfold Word.new at hw
    split at hw
    · exact absurd hw (by simp)
    · split at hw
      · exact absurd hw (by simp)
      · rename_i hup
        rw [Bool.not_eq_true', Bool.not_eq_false] at hup
        rw [← Except.ok.inj hw]
        exact hup

/-- C10 witness: the single non-ASCII alphabetic letter é is rejected, and a
word built from A only contains ASCII uppercase letters. -/
theorem word_ascii_only_witness :
    (Word.from_string ['é']).isOk = false ∧
    (⟨['A']⟩ : Word).chars.all isAsciiUppercase = true :=
  ⟨(word_ascii_only ['é']).1 ⟨'é', by decide, by decide, by decide⟩,
    (word_ascii_only []).2 ['A'] ⟨['A']⟩ (by decide)⟩

/-- The two components of the answer partition together are a permutation of
the partitioned list. -/
theorem partitionByHint_perm (g : Word) (h : Hint) :
    ∀ (l : List Word) (kr : List Word × List Word),
      partitionByHint g h l = some kr → (kr.1 ++ kr.2).Perm l := by
  intro l
  induction l with
  | nil =>
    intro kr hkr
    simp only [partitionByHint, Option.some.injEq] at hkr
    rw [← hkr]
    exact List.Perm.refl _
  | cons a rest ih =>
    intro kr hkr
    unfold partitionByHint at hkr
    cases hfa : Hint.from_guess_and_answer g a with
    | error e => rw [hfa] at hkr; exact Option.noConfusion hkr
    | ok ha =>
      rw [hfa] at hkr
      cases hrec : partitionByHint g h rest with
      | none => rw [hrec] at hkr; exact Option.noConfusion hkr
      | some kr' =>
        rw [hrec] at hkr
        simp only [Option.map_some', Option.some.injEq] at hkr
        by_cases hcase : ha = h
        · rw [if_pos hcase] at hkr
          rw [← hkr]
          exact List.Perm.cons a (ih kr' hrec)
        · rw [if_neg hcase] at hkr
          rw [← hkr]
          exact List.perm_middle.trans (List.Perm.cons a (ih kr' hrec))

/-- Every kept answer reproduces the hint against the guess, and the kept
answers are a subset of the partitioned list. -/
theorem partitionByHint_kept (g : Word) (h : Hint) :
    ∀ (l : List Word) (kr : List Word × List Word),
      partitionByHint g h l = some kr →
      (∀ w ∈ kr.1, Hint.from_guess_and_answer g w = Except.ok h) ∧
      kr.1 ⊆ l := by
  intro l
  induction l with
  | nil =>
    intro kr hkr
    simp only [partitionByHint, Option.some.injEq] at hkr
    rw [← hkr]
    exact ⟨by intro w hw; exact absurd hw (List.not_mem_nil w), by simp⟩
  | cons a rest ih =>
    intro kr hkr
    unfold partitionByHint at hkr
    cases hfa : Hint.from_guess_and_answer g a with
    | error e => rw [hfa] at hkr; exact Option.noConfusion hkr
    | ok ha =>
      rw [hfa] at hkr
      cases hrec : partitionByHint g h rest with
      | none => rw [hrec] at hkr; exact Option.noConfusion hkr
      | some kr' =>
        rw [hrec] at hkr
        simp only [Option.map_some', Option.some.injEq] at hkr
        obtain ⟨ihmem, ihsub⟩ := ih kr' hrec
        by_cases hcase : ha = h
        · rw [if_pos hcase] at hkr
          rw [← hkr]
          constructor
          · intro w hw
            rcases List.mem_cons.mp hw with hwa | hwk
            · rw [hwa, hfa, hcase]
            · exact ihmem w hwk
          · exact List.cons_subset_cons a ihsub
        · rw [if_neg hcase] at hkr
          rw [← hkr]
          exact ⟨ihmem, ihsub.trans (List.subset_cons_self a rest)⟩

/-- Retaining the elements different from an absent word changes nothing. -/
theorem filter_ne_of_not_mem {g : Word} {l : List Word} (hg : g ∉ l) :
    l.filter (fun w => !(w == g)) = l := by
  apply List.filter_eq_self.mpr
  intro a ha
  simp only [Bool.not_eq_eq_eq_not, Bool.not_true, beq_eq_false_iff_ne]
  intro hag
  rw [hag] at ha
  exact hg ha

/-- Retaining the elements different from a word occurring exactly once and
re-appending that word is a permutation of the original list. -/
theorem filter_count_one_perm {g : Word} :
    ∀ {l : List Word}, l.count g = 1 →
      (l.filter (fun w => !(w == g)) ++ [g]).Perm l := by
  intro l
  induction l with
  | nil => intro hcount; simp at hcount
  | cons a t ih =>
    intro hcount
    by_cases hag : a = g
    · subst hag
      have ht : t.count a = 0 := by
        rw [List.count_cons_self] at hcount; omega
      have hfit : t.filter (fun w => !(w == a)) = t := by
        apply List.filter_eq_self.mpr
        intro b hb
        simp only [Bool.not_eq_eq_eq_not, Bool.not_true, beq_eq_false_iff_ne]
        intro hba
        rw [List.count_eq_zero] at ht
        rw [hba] at hb
        exact ht hb
      rw [List.filter_cons_of_neg (by simp), hfit]
      exact List.perm_append_singleton a t
    · rw [List.filter_cons_of_pos (by simp [hag])]
      have hct : t.count g = 1 := by
        rw [List.count_cons_of_ne (by exact fun he => hag he.symm)] at hcount
        exact hcount
      exact List.Perm.cons a (ih hct)

/-- Characterisation of a hint step that passed validation: the answer
partition succeeded and the next state is exactly the record the source
builds (guess retained out, one entry pushed onto snapshots, history and
cache). -/
theorem hintStep_eq (sf : List Word → List Word → List ScoreEntry) (width : ℕ)
    (st st1 : SolverState) (g : Word) (h : Hint)
    (hglen : g.chars.length = width) (hhlen : h.letter_hints.length = width)
    (halpha : g.chars.all isAlphabetic = true)
    (hstep : hintStep sf width st g h = some st1) :
    ∃ kr, partitionByHint g h st.remaining_answers = some kr ∧
      st1 = { remaining_guesses := st.remaining_guesses.filter (fun w => !(w == g))
              remaining_answers := kr.1
              removed_answers := st.removed_answers ++ [kr.2]
              guess_history := st.guess_history ++ [(g, h)]
              word_scores := st.word_scores ++
                [sf (st.remaining_guesses.filter (fun w => !(w == g))) kr.1] } := by
  unfold hintStep at hstep
  rw [if_neg (by push_neg; exact ⟨hglen, hhlen⟩)] at hstep
  rw [if_neg (by simp [halpha])] at hstep
  cases hpart : partitionByHint g h st.remaining_answers with
  | none =>
    rw [hpart] at hstep
    exact Option.noConfusion hstep
  | some kr =>
    rw [hpart] at hstep
    exact ⟨kr, rfl, (Option.some.inj hstep).symm⟩

/-- Undoing from a state whose three stacks each end in a pushed entry pops
those entries, extends the answers with the popped snapshot and pushes the
popped guess back. -/
theorem undoStep_concat (st : SolverState) (g : Word) (h : Hint)
    (hist : List (Word × Hint)) (removed : List (List Word)) (r : List Word)
    (scores : List (List ScoreEntry)) (tbl : List ScoreEntry)
    (hh : st.guess_history = hist ++ [(g, h)])
    (hr : st.removed_answers = removed ++ [r])
    (hs : st.word_scores = scores ++ [tbl]) :
    undoStep st = some
      { remaining_guesses := st.remaining_guesses ++ [g]
        remaining_answers := st.remaining_answers ++ r
        removed_answers := removed
        guess_history := hist
        word_scores := scores } := by
  unfold undoStep
  rw [hh, hr, hs, List.getLast?_concat, List.getLast?_concat,
    List.getLast?_concat]
  dsimp only
  rw [List.dropLast_concat, List.dropLast_concat, List.dropLast_concat]

/-- C2 counterexample: hint followed by undo is not a bit-identical
restoration. From the width-1 state `st0` over `[A, B]`, applying the valid
pair (guess A, hint Incorrect) keeps B and removes A; undo re-appends A at
the end, so the remaining answers come back as `[B, A]` instead of the
original `[A, B]`. -/
theorem hint_undo_not_bit_identical :
    ((hintStep trivialScores 1 st0 wA hI).bind undoStep).map
        SolverState.remaining_answers ≠ some st0.remaining_answers := by
  decide

/-- C2 (amended): applying a valid hint(g, h) and then undo restores the
history, the removed-answer snapshots and the score cache bit-identically,
and restores the remaining answers and — provided g occurred exactly once in
the remaining guesses, as words drawn from the de-duplicated list do — the
remaining guesses as multisets: undo re-appends the removed answers and the
played guess at the end of their vectors, so only the element order can
differ from the pre-hint state. -/
theorem hint_undo_restores_up_to_order
    (sf : List Word → List Word → List ScoreEntry) (width : ℕ)
    (st st1 st2 : SolverState) (g : Word) (h : Hint)
    (hglen : g.chars.length = width) (hhlen : h.letter_hints.length = width)
    (halpha : g.chars.all isAlphabetic = true)
    (hcount : st.remaining_guesses.count g = 1)
    (h1 : hintStep sf width st g h = some st1)
    (h2 : undoStep st1 = some st2) :
    st2.remaining_answers.Perm st.remaining_answers ∧
    st2.remaining_guesses.Perm st.remaining_guesses ∧
    st2.guess_history = st.guess_history ∧
    st2.word_scores = st.word_scores ∧
    st2.removed_answers = st.removed_answers := by
  obtain ⟨kr, hpart, hst1⟩ := hintStep_eq sf width st st1 g h hglen hhlen halpha h1
  have hundo := undoStep_concat st1 g h st.guess_history st.removed_answers
    kr.2 st.word_scores (sf (st.remaining_guesses.filter (fun w => !(w == g))) kr.1)
    (by rw [hst1]) (by rw [hst1]) (by rw [hst1])
  rw [h2] at hundo
  have hst2 := Option.some.inj hundo
  subst hst2
  refine ⟨?_, ?_, rfl, rfl, rfl⟩
  · rw [hst1]
    exact partitionByHint_perm g h st.remaining_answers kr hpart
  · rw [hst1]
    exact filter_count_one_perm hcount

/-- C3: after a valid hint(g, h) is applied, every remaining answer
reproduces h against g, and the new remaining answers are a subset of the old
ones. -/
theorem hint_keeps_consistent_answers
    (sf : List Word → List Word → List ScoreEntry) (width : ℕ)
    (st st1 : SolverState) (g : Word) (h : Hint)
    (hglen : g.chars.length = width) (hhlen : h.letter_hints.length = width)
    (halpha : g.chars.all isAlphabetic = true)
    (hstep : hintStep sf width st g h = some st1) :
    (∀ w ∈ st1.remaining_answers,
      Hint.from_guess_and_answer g w = Except.ok h) ∧
    st1.remaining_answers ⊆ st.remaining_answers := by
  obtain ⟨kr, hpart, hst1⟩ := hintStep_eq sf width st st1 g h hglen hhlen halpha hstep
  rw [hst1]
  exact partitionByHint_kept g h st.remaining_answers kr hpart

/-- C3 witness: in the width-1 session over `[A, B]` with hint (A, Correct),
the surviving answer A reproduces the hint, and it was already a candidate
before. -/
theorem hint_keeps_consistent_answers_witness :
    Hint.from_guess_and_answer wA wA = Except.ok hC ∧
    wA ∈ st0.remaining_answers :=
  ⟨(hint_keeps_consistent_answers trivialScores 1 st0 st0h wA hC
      (by decide) (by decide) (by decide) (by decide)).1 wA (by decide),
   (hint_keeps_consistent_answers trivialScores 1 st0 st0h wA hC
      (by decide) (by decide) (by decide) (by decide)).2 (by decide)⟩

/-- C2 witness: from the width-1 state over `[A, B]`, hint (A, Correct)
followed by undo restores every component up to order. -/
theorem hint_undo_restores_witness :
    hintStep trivialScores 1 st0 wA hC = some st0h ∧
    undoStep st0h = some st0hu ∧
    (st0hu.remaining_answers.Perm st0.remaining_answers ∧
     st0hu.remaining_guesses.Perm st0.remaining_guesses ∧
     st0hu.guess_history = st0.guess_history ∧
     st0hu.word_scores = st0.word_scores ∧
     st0hu.removed_answers = st0.removed_answers) :=
  ⟨by decide, by decide,
    hint_undo_restores_up_to_order trivialScores 1 st0 st0h st0hu wA hC
      (by decide) (by decide) (by decide) (by decide) (by decide) (by decide)⟩

/-- C9: playing a guess that is not among the remaining guesses and then
undoing appends that guess: the retain in the hint step removes nothing, and
undo pushes the guess, so the remaining guesses strictly grow and now contain
it. -/
theorem hint_undo_appends_new_guess
    (sf : List Word → List Word → List ScoreEntry) (width : ℕ)
    (st st1 st2 : SolverState) (g : Word) (h : Hint)
    (hglen : g.chars.length = width) (hhlen : h.letter_hints.length = width)
    (halpha : g.chars.all isAlphabetic = true)
    (hnmem : g ∉ st.remaining_guesses)
    (h1 : hintStep sf width st g h = some st1)
    (h2 : undoStep st1 = some st2) :
    st2.remaining_guesses = st.remaining_guesses ++ [g] ∧
    g ∈ st2.remaining_guesses ∧
    st.remaining_guesses.length < st2.remaining_guesses.length := by
  obtain ⟨kr, hpart, hst1⟩ := hintStep_eq sf width st st1 g h hglen hhlen halpha h1
  have hundo := undoStep_concat st1 g h st.guess_history st.removed_answers
    kr.2 st.word_scores (sf (st.remaining_guesses.filter (fun w => !(w == g))) kr.1)
    (by rw [hst1]) (by rw [hst1]) (by rw [hst1])
  rw [h2] at hundo
  have hst2 := Option.some.inj hundo
  subst hst2
  have hrg : st1.remaining_guesses = st.remaining_guesses := by
    rw [hst1]
    exact filter_ne_of_not_mem hnmem
  refine ⟨by rw [hrg], ?_, ?_⟩
  · rw [hrg]
    exact List.mem_append_right _ (List.mem_singleton.mpr rfl)
  · rw [hrg]
    simp

/-- C9 witness: from the width-1 state over `[A, B]`, playing the outside
word C with hint Incorrect and undoing yields remaining guesses `[A, B, C]`. -/
theorem hint_undo_appends_new_guess_witness :
    hintStep trivialScores 1 st0 wC hI = some st9 ∧
    undoStep st9 = some st9u ∧
    (st9u.remaining_guesses = st0.remaining_guesses ++ [wC] ∧
     wC ∈ st9u.remaining_guesses ∧
     st0.remaining_guesses.length < st9u.remaining_guesses.length) :=
  ⟨by decide, by decide,
    hint_undo_appends_new_guess trivialScores 1 st0 st9 st9u wC hI
      (by decide) (by decide) (by decide) (by decide) (by decide) (by decide)⟩

/-- A hint step (validated or not) preserves the cache/history length
invariant: either the state is unchanged or all three stacks grow by one. -/
theorem hintStep_preserves_lengthsInv
    (sf : List Word → List Word → List ScoreEntry) (width : ℕ)
    (st : SolverState) (g : Word) (h : Hint) (st' : SolverState)
    (hinv : lengthsInv st) (hstep : hintStep sf width st g h = some st') :
    lengthsInv st' := by
  unfold hintStep at hstep
  split at hstep
  · exact (Option.some.inj hstep) ▸ hinv
  · split at hstep
    · exact (Option.some.inj hstep) ▸ hinv
    · cases hpart : partitionByHint g h st.remaining_answers with
      | none =>
        rw [hpart] at hstep
        exact Option.noConfusion hstep
      | some kr =>
        rw [hpart] at hstep
        have hst' := (Option.some.inj hstep).symm
        subst hst'
        obtain ⟨hi1, hi2⟩ := hinv
        constructor
        · simp only [lengthsInv, List.length_append, List.length_cons,
            List.length_nil]
          omega
        · simp only [lengthsInv, List.length_append, List.length_cons,
            List.length_nil]
          omega

/-- An undo step preserves the cache/history length invariant: either the
history was empty and nothing changes, or all three stacks shrink by one. -/
theorem undoStep_preserves_lengthsInv (st st' : SolverState)
    (hinv : lengthsInv st) (hstep : undoStep st = some st') :
    lengthsInv st' := by
  unfold undoStep at hstep
  cases hlast : st.guess_history.getLast? with
  | none =>
    rw [hlast] at hstep
    exact (Option.some.inj hstep) ▸ hinv
  | some gh =>
    rw [hlast] at hstep
    have hne : st.guess_history ≠ [] := by
      intro he
      rw [he] at hlast
      exact Option.noConfusion hlast
    have hpos : 0 < st.guess_history.length := List.length_pos.mpr hne
    obtain ⟨hi1, hi2⟩ := hinv
    cases hrlast : st.removed_answers.getLast? with
    | none =>
      rw [hrlast] at hstep
      exact Option.noConfusion hstep
    | some r =>
      rw [hrlast] at hstep
      cases hslast : st.word_scores.getLast? with
      | none =>
        rw [hslast] at hstep
        exact Option.noConfusion hstep
      | some tbl =>
        rw [hslast] at hstep
        have hst' := (Option.some.inj hstep).symm
        subst hst'
        constructor
        · simp only [List.length_dropLast]
          omega
        · simp only [List.length_dropLast]
          omega

/-- Every REPL command preserves the cache/history length invariant. -/
theorem step_preserves_lengthsInv
    (sf : List Word → List Word → List ScoreEntry) (width : ℕ)
    (st : SolverState) (c : Cmd) (st' : SolverState)
    (hinv : lengthsInv st) (hstep : step sf width st c = some st') :
    lengthsInv st' := by
  cases c with
  | top n strictArg =>
    replace hstep : topStep st strictArg = some st' := hstep
    rcases strictArg with _ | s
    · replace hstep : (if st.guess_history.length < st.word_scores.length
          then some st else none) = some st' := hstep
      by_cases hidx : st.guess_history.length < st.word_scores.length
      · rw [if_pos hidx] at hstep
        exact (Option.some.inj hstep) ▸ hinv
      · rw [if_neg hidx] at hstep
        exact Option.noConfusion hstep
    · replace hstep : (if s = ['s', 't', 'r', 'i', 'c', 't'] then
          (if st.guess_history.length < st.word_scores.length
            then some st else none)
          else some st) = some st' := hstep
      by_cases hs : s = ['s', 't', 'r', 'i', 'c', 't']
      · rw [if_pos hs] at hstep
        by_cases hidx : st.guess_history.length < st.word_scores.length
        · rw [if_pos hidx] at hstep
          exact (Option.some.inj hstep) ▸ hinv
        · rw [if_neg hidx] at hstep
          exact Option.noConfusion hstep
      · rw [if_neg hs] at hstep
        exact (Option.some.inj hstep) ▸ hinv
  | score w =>
    replace hstep : scoreStep st w = some st' := hstep
    unfold scoreStep at hstep
    cases hparse : Word.from_string w with
    | error e =>
      rw [hparse] at hstep
      exact (Option.some.inj hstep) ▸ hinv
    | ok pw =>
      rw [hparse] at hstep
      replace hstep : (if st.guess_history.length < st.word_scores.length
          then some st else none) = some st' := hstep
      by_cases hidx : st.guess_history.length < st.word_scores.length
      · rw [if_pos hidx] at hstep
        exact (Option.some.inj hstep) ▸ hinv
      · rw [if_neg hidx] at hstep
        exact Option.noConfusion hstep
  | hintC gtext htext =>
    replace hstep : hintCmdStep sf width st gtext htext = some st' := hstep
    unfold hintCmdStep at hstep
    cases hparse : Word.from_string gtext with
    | error e =>
      rw [hparse] at hstep
      exact (Option.some.inj hstep) ▸ hinv
    | ok g =>
      rw [hparse] at hstep
      dsimp only at hstep
      cases hhparse : Hint.from_string htext g with
      | error e =>
        rw [hhparse] at hstep
        exact (Option.some.inj hstep) ▸ hinv
      | ok h =>
        rw [hhparse] at hstep
        exact hintStep_preserves_lengthsInv sf width st g h st' hinv hstep
  | historyC =>
    replace hstep : some st = some st' := hstep
    exact (Option.some.inj hstep) ▸ hinv
  | undoC =>
    replace hstep : undoStep st = some st' := hstep
    exact undoStep_preserves_lengthsInv st st' hinv hstep

/-- Running any command sequence preserves the cache/history length
invariant. -/
theorem runSession_preserves_lengthsInv
    (sf : List Word → List Word → List ScoreEntry) (width : ℕ) :
    ∀ (cmds : List Cmd) (st st' : SolverState), lengthsInv st →
      runSession sf width st cmds = some st' → lengthsInv st' := by
  intro cmds
  induction cmds with
  | nil =>
    intro st st' hinv hrun
    unfold runSession at hrun
    exact (Option.some.inj hrun) ▸ hinv
  | cons c cs ih =>
    intro st st' hinv hrun
    unfold runSession at hrun
    cases hstep : step sf width st c with
    | none =>
      rw [hstep] at hrun
      exact Option.noConfusion hrun
    | some stm =>
      rw [hstep] at hrun
      exact ih stm st' (step_preserves_lengthsInv sf width st c stm hinv hstep) hrun

/-- C8: in every state reachable from the initial session state by top,
score, hint, history and undo commands, the history length equals the score
cache length minus one — the cache holds one table for the initial state plus
one per applied hint. -/
theorem history_cache_length_invariant
    (sf : List Word → List Word → List ScoreEntry) (width : ℕ)
    (word_list : List Word) (cmds : List Cmd) (st : SolverState)
    (hrun : runSession sf width (initState sf word_list) cmds = some st) :
    st.guess_history.length = st.word_scores.length - 1 := by
  have hinv0 : lengthsInv (initState sf word_list) := by
    constructor <;> simp [initState]
  obtain ⟨hi1, _⟩ :=
    runSession_preserves_lengthsInv sf width cmds (initState sf word_list) st
      hinv0 hrun
  omega

/-- C8 witness: in the width-1 session over `[A, B]`, after an undo on the
fresh state (a no-op) and a history command the invariant holds: no hint has
been applied and the cache holds exactly one table. -/
theorem history_cache_length_invariant_witness :
    (initState trivialScores [wA, wB]).guess_history.length =
      (initState trivialScores [wA, wB]).word_scores.length - 1 :=
  history_cache_length_invariant trivialScores 1 [wA, wB]
    [Cmd.undoC, Cmd.historyC] (initState trivialScores [wA, wB]) (by decide)

/-- Splitting into positive-size chunks and flattening recovers the list. -/
theorem chunksOf_flatten {α : Type} (k : ℕ) (hk : 0 < k) (l : List α) :
    (chunksOf k l).flatten = l := by
  have H : ∀ (n : ℕ) (l : List α), l.length ≤ n →
      (chunksOf k l).flatten = l := by
    intro n
    induction n with
    | zero =>
      intro l hl
      rw [List.length_eq_zero.mp (Nat.le_zero.mp hl)]
      rw [chunksOf]
      simp
    | succ m ih =>
      intro l hl
      rw [chunksOf]
      split
      · rename_i hcond
        rw [List.flatten_cons]
        rw [ih (l.drop k) (by simp only [List.length_drop]; omega)]
        exact List.take_append_drop k l
      · rename_i hcond
        have hl0 : l = [] := List.length_eq_zero.mp (by omega)
        rw [hl0]
        rfl
  exact H l.length l (Nat.le_refl _)

/-- C7: the chunked scoring pipeline returns the same ranked table as the
sequential one-chunk computation, for every chunk size and every per-guess
score kernel. Worker scheduling cannot influence the result either: rayon's
indexed collect concatenates the per-chunk outputs in chunk order no matter
which worker produced them, which is what the chunk-order flatten models. -/
theorem get_scores_chunk_invariant (scoreOf : Word → ℚ × ℚ) (k : ℕ)
    (hk : 0 < k) (guesses : List Word) :
    get_scores scoreOf k guesses = get_scores_seq scoreOf guesses := by
  unfold get_scores get_scores_seq
  congr 1
  rw [show (fun chunk : List Word => chunk.map (fun g => (g, scoreOf g))) =
    List.map (fun g => (g, scoreOf g)) from rfl]
  rw [← List.map_flatten, chunksOf_flatten k hk]

/-- C7 witness: with chunk size 2 over three guesses the chunked table equals
the sequential one. -/
theorem get_scores_chunk_invariant_witness :
    get_scores lengthKernel 2 [wA, wB, wC] =
      get_scores_seq lengthKernel [wA, wB, wC] :=
  get_scores_chunk_invariant lengthKernel 2 (by decide) [wA, wB, wC]

end Rudle
